import Mathlib

/-!
Formal model of the scheduling engine of `src/BB_Sch_APP.py`:
`add_business_days` (lines 113-123) and `calculate_schedule_dates`
(lines 125-193).

Date encoding: a date is a `Nat`, the number of calendar days since
Monday 2024-01-01 (day 0).  Hence `d % 7` is Python's
`date.weekday()` (0 = Monday .. 6 = Sunday), and a day falls on a
weekend exactly when `d % 7 >= 5`.  Examples used below:
day 4 = 2024-01-05 (Friday), day 5 = 2024-01-06 (Saturday),
day 7 = 2024-01-08 (Monday).

The blocked-date set (a Python set of strings) is modelled as a
`List Nat` holding the dates denoted by its well-formed ISO entries;
an entry that is not an ISO date string can never equal
`str(current_date)`, so dropping it does not change the semantics.

The two `while` loops of `add_business_days` terminate because the
blocked set is finite; here they are written with an explicit fuel
argument that is proved sufficient (`next_working_day_spec`,
`add_business_days_eq_iter`), so every definition stays executable
and the fuelled functions compute exactly what the loops compute.
-/

/-- A date is a valid working day: not a weekend and not blocked.
This is the negation of the skip condition of the `while` loop at
line 115 (`current_date.weekday() >= 5 or str(current_date) in
blocked_dates_set`). -/
def validDay (blocked : List Nat) (d : Nat) : Bool :=
  decide (d % 7 < 5) && !(decide (d ∈ blocked))

/-- The normalization loop at lines 114-116 of `add_business_days`:
advance one day at a time while the current day is a weekend or
blocked.  `fuel` bounds the number of iterations; `blockedBound`
below is proved to always suffice. -/
def next_working_day_aux (blocked : List Nat) : Nat → Nat → Nat
  | 0, d => d
  | fuel+1, d =>
      if validDay blocked d then d else next_working_day_aux blocked fuel (d+1)

/-- An iteration bound for the normalization loop: past the largest
blocked date, at most a weekend (plus slack) still has to be skipped. -/
def blockedBound (blocked : List Nat) : Nat := blocked.foldr max 0 + 9

/-- The first valid working day at or after `d` (the normalization
loop of `add_business_days`, lines 114-116). -/
def next_working_day (blocked : List Nat) (d : Nat) : Nat :=
  next_working_day_aux blocked (blockedBound blocked) d

/-- One more working day: the first valid working day strictly after
`c`.  The counting loop at lines 118-122 performs exactly this step
once per counted day. -/
def gainDay (blocked : List Nat) (c : Nat) : Nat :=
  next_working_day blocked (c + 1)

/-- The counting loop at lines 118-122 of `add_business_days`:
`while days_added < days_to_add: current += 1; if valid: days_added += 1`,
written with an explicit fuel bound on the number of iterations. -/
def add_business_days_aux (blocked : List Nat) : Nat → Nat → Nat → Nat → Nat
  | 0, current, _, _ => current
  | fuel+1, current, days_added, days_to_add =>
      if days_added < days_to_add then
        if validDay blocked (current + 1) then
          add_business_days_aux blocked fuel (current + 1) (days_added + 1) days_to_add
        else
          add_business_days_aux blocked fuel (current + 1) days_added days_to_add
      else current

/-- `add_business_days` (lines 113-123): normalize the start to a
valid working day, return it if `days_to_add == 0`, otherwise advance
day by day counting only valid working days until `days_to_add` of
them have been counted. -/
def add_business_days (start_date days_to_add : Nat) (blocked : List Nat) : Nat :=
  let current := next_working_day blocked start_date
  if days_to_add = 0 then current
  else add_business_days_aux blocked (days_to_add * blockedBound blocked) current 0 days_to_add

/-! ## Schedule solver data model

A task record as consumed by `calculate_schedule_dates` (one row of
`tasks_df`), restricted to the fields the function reads.  Fallible
parses are modelled as `Option` values holding the parse result:
`start_date_override = none` covers both an absent override and an
unparsable one (line 138-140: the `except: pass` leaves the default in
place), and `dependencies = none` models an unparsable/missing
dependencies JSON (line 142-143: defaulted to `[]`). -/

structure TaskIn where
  id : Nat
  duration : Nat
  start_date_override : Option Nat
  dependencies : Option (List Nat)
deriving DecidableEq

/-- A task as annotated by the solver: the input fields plus the
computed `early_start`, `early_finish` and `is_critical`.  The
`start_date` / `end_date` strings written at lines 184-185 are the
ISO renderings of `early_start` / `early_finish`; since that
rendering is injective and order-preserving, claims about them are
stated on `early_start` / `early_finish` directly. -/
structure STask where
  id : Nat
  duration : Nat
  start_date_override : Option Nat
  dep_list : List Nat
  early_start : Nat
  early_finish : Nat
  is_critical : Bool
deriving DecidableEq

/-- Initialization of one task (lines 136-143): provisional
`early_start` is the normalized project start, replaced by the
override date when one is present and parseable; `early_finish` is
`add_business_days(early_start, duration, blocked)`; the dependency
list defaults to `[]` when unparsable. -/
def initTask (proj_start : Nat) (blocked : List Nat) (t : TaskIn) : STask :=
  let es0 := add_business_days proj_start 0 blocked
  let es := match t.start_date_override with
    | some d => d
    | none => es0
  { id := t.id
    duration := t.duration
    start_date_override := t.start_date_override
    dep_list := t.dependencies.getD []
    early_start := es
    early_finish := add_business_days es t.duration blocked
    is_critical := false }

/-- Lookup in `task_map` (line 128).  The Python dict maps each id to
the task dict itself, so lookups during the passes observe the current
mutated state; with duplicate ids the dict keeps the last record,
hence the search over the reversed list. -/
def taskMapFind (ts : List STask) (pid : Nat) : Option STask :=
  ts.reverse.find? (fun u => u.id == pid)

/-- The `pred_finishes` list (lines 150-152): the `early_finish` of
every dependency id resolvable in the task map; unresolvable ids are
skipped. -/
def predFinishes (ts : List STask) (deps : List Nat) : List Nat :=
  deps.filterMap (fun pid => (taskMapFind ts pid).map (fun u => u.early_finish))

/-- The candidate new start for one task in a forward pass
(lines 148-155): its own `early_start` when it has no dependencies,
otherwise the maximum resolvable predecessor finish (or the raw
project start when no dependency resolves), normalized through
`add_business_days(_, 0, _)`. -/
def newStartFor (proj_start : Nat) (blocked : List Nat) (ts : List STask) (t : STask) : Nat :=
  let ns :=
    if t.dep_list.isEmpty then t.early_start
    else
      match predFinishes ts t.dep_list with
      | [] => proj_start
      | f :: fs => fs.foldl max f
  add_business_days ns 0 blocked

/-- One forward pass over the task list (lines 146-159), processing
positions `i, i+1, ...` (`rem` positions remain).  A task whose
normalized candidate start is strictly later than its current
`early_start` is updated in place and the pass is flagged as changed.
Lookups go through the current list, as the aliasing dict does in the
source. -/
def passAux (proj_start : Nat) (blocked : List Nat) :
    Nat → Nat → List STask → Bool → List STask × Bool
  | 0, _, ts, changed => (ts, changed)
  | rem+1, i, ts, changed =>
      match ts[i]? with
      | none => (ts, changed)
      | some t =>
          let ns := newStartFor proj_start blocked ts t
          if t.early_start < ns then
            passAux proj_start blocked rem (i + 1)
              (ts.set i { t with
                early_start := ns
                early_finish := add_business_days ns t.duration blocked }) true
          else
            passAux proj_start blocked rem (i + 1) ts changed

/-- One full forward pass (`for t in tasks`, line 147) together with
its `changed` flag. -/
def passOnce (proj_start : Nat) (blocked : List Nat) (ts : List STask) : List STask × Bool :=
  passAux proj_start blocked ts.length 0 ts false

/-- The iteration-capped fixed-point loop (line 145:
`for _ in range(len(tasks))`, with the early `break` at line 160 when
a pass changes nothing). -/
def forwardLoop (proj_start : Nat) (blocked : List Nat) : Nat → List STask → List STask
  | 0, ts => ts
  | fuel+1, ts =>
      let r := passOnce proj_start blocked ts
      if r.2 then forwardLoop proj_start blocked fuel r.1 else r.1

/-- The number of full passes the loop `forwardLoop` actually
executes before stopping (counting the final unchanged pass). -/
def forwardLoopCount (proj_start : Nat) (blocked : List Nat) : Nat → List STask → Nat
  | 0, _ => 0
  | fuel+1, ts =>
      let r := passOnce proj_start blocked ts
      if r.2 then forwardLoopCount proj_start blocked fuel r.1 + 1 else 1

/-- `n` full forward passes applied in sequence. -/
def passIter (proj_start : Nat) (blocked : List Nat) (n : Nat) (ts : List STask) : List STask :=
  (fun s => (passOnce proj_start blocked s).1)^[n] ts

/-- The forward pass has converged on `ts`: one more full pass
changes no task (the pass falls through to `break` at line 160). -/
def Converged (proj_start : Nat) (blocked : List Nat) (ts : List STask) : Prop :=
  (passOnce proj_start blocked ts).2 = false

/-! ## Criticality classification (lines 162-180) -/

/-- `max_finish` (line 163): the largest `early_finish`, or the
project start for an empty list. -/
def maxFinish (proj_start : Nat) (ts : List STask) : Nat :=
  match ts.map (fun t => t.early_finish) with
  | [] => proj_start
  | f :: fs => fs.foldl max f

/-- The successor ids of task id `i` (lines 164-168): the ids, in
task order, of every task that lists `i` among its dependencies.
Dependency ids that are not task ids are dropped by the
`if dep in successors` guard and collect no successors.  The source
builds this map once before the sweep; ids and dependency lists never
change afterwards, so recomputing it on the current list is
equivalent. -/
def successorsOf (ts : List STask) (i : Nat) : List Nat :=
  (ts.filter (fun u => u.dep_list.contains i)).map (fun u => u.id)

/-- Criticality seeding (lines 165-172): reset every flag, then mark
critical exactly the tasks with `early_finish >= max_finish`. -/
def seedCritical (maxF : Nat) (ts : List STask) : List STask :=
  ts.map (fun t => { t with is_critical := decide (maxF ≤ t.early_finish) })

/-- The key of position `i` for the descending sort (the task's
`early_finish`). -/
def finishAt (ts : List STask) (i : Nat) : Nat :=
  ((ts[i]?).map (fun t => t.early_finish)).getD 0

/-- Stable insertion of position `i` into a list of positions sorted
by strictly descending `early_finish`: `i` goes after every already
placed position with an equal or larger key, matching the stability
of Python's `sorted(..., reverse=True)` (line 174). -/
def insertDesc (ts : List STask) (i : Nat) : List Nat → List Nat
  | [] => [i]
  | j :: rest =>
      if finishAt ts j < finishAt ts i then i :: j :: rest
      else j :: insertDesc ts i rest

/-- The positions `0, ..., length-1` in descending order of
`early_finish`, ties kept in original order (line 174). -/
def sortDescIdx (ts : List STask) : List Nat :=
  (List.range ts.length).foldl (fun acc i => insertDesc ts i acc) []

/-- The inner loop of the backward sweep (lines 176-180) for the task
at position `i`: walk its successor ids in order; whenever the
successor (looked up through the task map) is already critical and
`t.early_finish >= succ.early_start`, set the task's flag.  The state
is threaded because the flag write is visible to later iterations. -/
def critInner (ts : List STask) (i : Nat) : List Nat → List STask
  | [] => ts
  | sid :: rest =>
      let ts2 :=
        match taskMapFind ts sid, ts[i]? with
        | some succ, some t =>
            if succ.is_critical && decide (succ.early_start ≤ t.early_finish) then
              ts.set i { t with is_critical := true }
            else ts
        | _, _ => ts
      critInner ts2 i rest

/-- The backward sweep (lines 175-180): process the positions in
descending `early_finish` order, running `critInner` on each. -/
def critSweep (ts : List STask) : List Nat → List STask
  | [] => ts
  | i :: rest =>
      match ts[i]? with
      | none => critSweep ts rest
      | some t => critSweep (critInner ts i (successorsOf ts t.id)) rest

/-- The full criticality phase (lines 162-180): compute `max_finish`,
seed, then sweep in descending finish order. -/
def critPhase (proj_start : Nat) (ts : List STask) : List STask :=
  let seeded := seedCritical (maxFinish proj_start ts) ts
  critSweep seeded (sortDescIdx seeded)

/-! ## The full solver -/

/-- The effective blocked set (lines 129-130): the parsed JSON list,
or the empty set when parsing fails. -/
def effBlocked (blocked_dates : Option (List Nat)) : List Nat :=
  blocked_dates.getD []

/-- The effective project start (lines 132-133): the parsed project
start date, or today's date when parsing fails. -/
def effStart (proj : Option Nat) (today : Nat) : Nat :=
  proj.getD today

/-- The initialization stage of `calculate_schedule_dates`
(lines 136-143) applied to every task. -/
def initStage (tasks : List TaskIn) (proj : Option Nat) (blocked : Option (List Nat))
    (today : Nat) : List STask :=
  (tasks.map (initTask (effStart proj today) (effBlocked blocked)))

/-- The forward-pass stage (lines 145-160): the capped fixed-point
loop run on the initialized tasks, with the cap `len(tasks)`. -/
def fwdStage (tasks : List TaskIn) (proj : Option Nat) (blocked : Option (List Nat))
    (today : Nat) : List STask :=
  forwardLoop (effStart proj today) (effBlocked blocked) tasks.length
    (initStage tasks proj blocked today)

/-- `calculate_schedule_dates` (lines 125-193): an empty task list is
returned unchanged (line 126); otherwise initialization, the forward
pass, and the criticality phase run in sequence.  `today` stands for
`datetime.date.today()`. -/
def calculate_schedule_dates (tasks : List TaskIn) (proj : Option Nat)
    (blocked : Option (List Nat)) (today : Nat) : List STask :=
  if tasks.isEmpty then []
  else critPhase (effStart proj today) (fwdStage tasks proj blocked today)

/-! ## Criticality policy as worded by the specification

`critSpecStep` and `critSpecPhase` are modelled from the words of the
spec / claim C5, not from the code: seed every task whose
`early_finish >= project_max_finish`, then process tasks in
descending order of `early_finish`, marking a task critical exactly
when it already is or some successor already marked critical
satisfies `task.early_finish >= successor.early_start`. -/

/-- Does successor id `sid` of task `t` witness criticality for `t`:
it resolves to a task already marked critical with
`succ.early_start <= t.early_finish`? -/
def chkSucc (ts : List STask) (t : STask) (sid : Nat) : Bool :=
  match taskMapFind ts sid with
  | some succ => succ.is_critical && decide (succ.early_start ≤ t.early_finish)
  | none => false

def critSpecStep (ts : List STask) (i : Nat) : List STask :=
  match ts[i]? with
  | none => ts
  | some t =>
      ts.set i { t with is_critical := t.is_critical || (successorsOf ts t.id).any (chkSucc ts t) }

def critSpecSweep (ts : List STask) : List Nat → List STask
  | [] => ts
  | i :: rest => critSpecSweep (critSpecStep ts i) rest

def critSpecPhase (proj_start : Nat) (ts : List STask) : List STask :=
  let seeded := seedCritical (maxFinish proj_start ts) ts
  critSpecSweep seeded (sortDescIdx seeded)

instance (ps : Nat) (bl : List Nat) (ts : List STask) : Decidable (Converged ps bl ts) := by
  unfold Converged
  infer_instance

/-- The scheduling data of a task: every field except `is_critical`. -/
def coreOf (t : STask) : Nat × Nat × Option Nat × List Nat × Nat × Nat :=
  (t.id, t.duration, t.start_date_override, t.dep_list, t.early_start, t.early_finish)

/-- The input fields of a task: everything the forward pass never changes. -/
def staticOf (t : STask) : Nat × Nat × Option Nat × List Nat :=
  (t.id, t.duration, t.start_date_override, t.dep_list)

theorem le_foldr_max (l : List Nat) (b : Nat) : ∀ a ∈ l, a ≤ l.foldr max b := by
  induction l with
  | nil => simp
  | cons x xs ih =>
      intro a ha
      rcases List.mem_cons.mp ha with h | h
      · subst h; exact le_max_left _ _
      · exact le_trans (ih a h) (le_max_right _ _)

/-- From any day `d`, a valid working day is reached in fewer than
`blockedBound blocked` steps: the first Monday past both `d` and all
blocked dates qualifies. -/
theorem exists_valid_lt_bound (blocked : List Nat) (d : Nat) :
    ∃ k, k < blockedBound blocked ∧ validDay blocked (d + k) = true := by
  have hM : ∀ a ∈ blocked, a ≤ blocked.foldr max 0 := fun a ha => le_foldr_max blocked 0 a ha
  set M := blocked.foldr max 0 with hMdef
  set x := max d (M + 1) with hxdef
  have hdx : d ≤ x := le_max_left _ _
  have hMx : M + 1 ≤ x := le_max_right _ _
  have hdm : 7 * ((x + 6) / 7) + (x + 6) % 7 = x + 6 := Nat.div_add_mod (x + 6) 7
  have hmod : (x + 6) % 7 < 7 := Nat.mod_lt _ (by omega)
  have hxt : x ≤ 7 * ((x + 6) / 7) := by omega
  have htx : 7 * ((x + 6) / 7) ≤ x + 6 := by omega
  refine ⟨7 * ((x + 6) / 7) - d, ?_, ?_⟩
  · have hcase : x = d ∨ x = M + 1 := by
      rcases max_choice d (M + 1) with h | h
      · exact Or.inl (by omega)
      · exact Or.inr (by omega)
    rcases hcase with h | h <;> simp [blockedBound, ← hMdef] <;> omega
  · have hde : d + (7 * ((x + 6) / 7) - d) = 7 * ((x + 6) / 7) := by omega
    rw [hde]
    have hwk : 7 * ((x + 6) / 7) % 7 = 0 := Nat.mul_mod_right 7 _
    have hnb : 7 * ((x + 6) / 7) ∉ blocked := by
      intro hmem
      have := hM _ hmem
      omega
    simp [validDay, hwk, hnb]

/-- With enough fuel, the normalization loop returns the least valid
working day at or after its start. -/
theorem next_working_day_aux_spec (blocked : List Nat) :
    ∀ fuel d, (∃ k, k < fuel ∧ validDay blocked (d + k) = true) →
      validDay blocked (next_working_day_aux blocked fuel d) = true ∧
      d ≤ next_working_day_aux blocked fuel d ∧
      ∀ e, d ≤ e → validDay blocked e = true → next_working_day_aux blocked fuel d ≤ e := by
  intro fuel
  induction fuel with
  | zero =>
      rintro d ⟨k, hk, _⟩
      omega
  | succ f ih =>
      rintro d ⟨k, hk, hv⟩
      by_cases hd : validDay blocked d = true
      · refine ⟨by simp [next_working_day_aux, hd], by simp [next_working_day_aux, hd], ?_⟩
        intro e he _
        simpa [next_working_day_aux, hd] using he
      · have hk0 : k ≠ 0 := by
          rintro rfl
          exact hd (by simpa using hv)
        obtain ⟨k', rfl⟩ : ∃ k', k = k' + 1 := ⟨k - 1, by omega⟩
        have hex : ∃ k2, k2 < f ∧ validDay blocked (d + 1 + k2) = true :=
          ⟨k', by omega, by have : d + 1 + k' = d + (k' + 1) := by omega
                            rw [this]; exact hv⟩
        obtain ⟨h1, h2, h3⟩ := ih (d + 1) hex
        refine ⟨by simpa [next_working_day_aux, hd] using h1,
                by simp [next_working_day_aux, hd]; omega, ?_⟩
        intro e he hve
        have hne : d ≠ e := by
          rintro rfl; exact hd hve
        simpa [next_working_day_aux, hd] using h3 e (by omega) hve

theorem next_working_day_spec (blocked : List Nat) (d : Nat) :
    validDay blocked (next_working_day blocked d) = true ∧
    d ≤ next_working_day blocked d ∧
    ∀ e, d ≤ e → validDay blocked e = true → next_working_day blocked d ≤ e :=
  next_working_day_aux_spec blocked _ d (exists_valid_lt_bound blocked d)

theorem next_working_day_valid (blocked : List Nat) (d : Nat) :
    validDay blocked (next_working_day blocked d) = true :=
  (next_working_day_spec blocked d).1

theorem le_next_working_day (blocked : List Nat) (d : Nat) :
    d ≤ next_working_day blocked d :=
  (next_working_day_spec blocked d).2.1

theorem next_working_day_min (blocked : List Nat) (d e : Nat) (hde : d ≤ e)
    (hv : validDay blocked e = true) : next_working_day blocked d ≤ e :=
  (next_working_day_spec blocked d).2.2 e hde hv

theorem next_working_day_eq_of_valid (blocked : List Nat) (d : Nat)
    (hv : validDay blocked d = true) : next_working_day blocked d = d :=
  le_antisymm (next_working_day_min blocked d d le_rfl hv) (le_next_working_day blocked d)

theorem lt_next_working_day_of_invalid (blocked : List Nat) (d : Nat)
    (hv : validDay blocked d = false) : d < next_working_day blocked d := by
  have hle := le_next_working_day blocked d
  rcases lt_or_eq_of_le hle with h | h
  · exact h
  · exfalso
    have hval := next_working_day_valid blocked d
    rw [← h] at hval
    rw [hval] at hv
    exact Bool.noConfusion hv

theorem next_working_day_lt_bound (blocked : List Nat) (d : Nat) :
    next_working_day blocked d < d + blockedBound blocked := by
  obtain ⟨k, hk, hv⟩ := exists_valid_lt_bound blocked d
  have := next_working_day_min blocked d (d + k) (by omega) hv
  omega

theorem next_working_day_succ_of_invalid (blocked : List Nat) (d : Nat)
    (hv : validDay blocked d = false) :
    next_working_day blocked d = next_working_day blocked (d + 1) := by
  apply le_antisymm
  · exact next_working_day_min blocked d _ (by have := le_next_working_day blocked (d + 1); omega)
      (next_working_day_valid blocked (d + 1))
  · refine next_working_day_min blocked (d + 1) _ ?_ (next_working_day_valid blocked d)
    have := lt_next_working_day_of_invalid blocked d hv
    omega

/-- If `k` working days are still to be counted, the counting loop
computes `k` iterations of `gainDay`, provided the fuel covers the
remaining invalid-day skips. -/
theorem add_business_days_aux_eq_iter (blocked : List Nat) :
    ∀ fuel c k n, k < n →
      (n - k - 1) * blockedBound blocked + (next_working_day blocked (c + 1) - (c + 1)) + 1 ≤ fuel →
      add_business_days_aux blocked fuel c k n = (gainDay blocked)^[n - k] c := by
  intro fuel
  induction fuel with
  | zero => intro c k n hk hf; omega
  | succ f ih =>
      intro c k n hk hf
      by_cases hv : validDay blocked (c + 1) = true
      · have hg : gainDay blocked c = c + 1 := next_working_day_eq_of_valid blocked (c + 1) hv
        rw [add_business_days_aux]
        simp only [hk, if_true, hv, if_true]
        by_cases hkn : k + 1 < n
        · have hfuel : (n - (k + 1) - 1) * blockedBound blocked +
              (next_working_day blocked (c + 1 + 1) - (c + 1 + 1)) + 1 ≤ f := by
            have hb := next_working_day_lt_bound blocked (c + 1 + 1)
            have hb2 := le_next_working_day blocked (c + 1 + 1)
            have : (n - k - 1) * blockedBound blocked =
                (n - (k + 1) - 1) * blockedBound blocked + blockedBound blocked := by
              have : n - k - 1 = (n - (k + 1) - 1) + 1 := by omega
              rw [this, Nat.succ_mul]
            omega
          rw [ih (c + 1) (k + 1) n hkn hfuel]
          have hnk : n - k = (n - (k + 1)) + 1 := by omega
          rw [hnk, Function.iterate_succ_apply, hg]
        · have hkn2 : k + 1 = n := by omega
          have hdone : ∀ f2, add_business_days_aux blocked f2 (c + 1) (k + 1) n = c + 1 := by
            intro f2
            cases f2 with
            | zero => rfl
            | succ f3 =>
                rw [add_business_days_aux]
                simp [hkn2]
          rw [hdone]
          have hnk : n - k = 1 := by omega
          rw [hnk]
          simp [Function.iterate_one, hg]
      · have hv2 : validDay blocked (c + 1) = false := by
          simpa using hv
        rw [add_business_days_aux]
        simp only [hk, if_true, hv2, Bool.false_eq_true, if_false]
        have hsucc : next_working_day blocked (c + 1) = next_working_day blocked (c + 1 + 1) :=
          next_working_day_succ_of_invalid blocked (c + 1) hv2
        have hgt := lt_next_working_day_of_invalid blocked (c + 1) hv2
        have hfuel : (n - k - 1) * blockedBound blocked +
            (next_working_day blocked (c + 1 + 1) - (c + 1 + 1)) + 1 ≤ f := by
          rw [← hsucc]
          omega
        rw [ih (c + 1) k n hk hfuel]
        have hgain : gainDay blocked c = gainDay blocked (c + 1) := by
          unfold gainDay
          exact hsucc
        have hnk : ∃ m, n - k = m + 1 := ⟨n - k - 1, by omega⟩
        obtain ⟨m, hm⟩ := hnk
        rw [hm, Function.iterate_succ_apply, Function.iterate_succ_apply, hgain]

/-- `add_business_days` equals `n` iterations of "advance to the next
valid working day strictly after", starting from the normalized start
day.  This is the clean functional characterization of the counting
loop used by all later proofs. -/
theorem add_business_days_eq_iter (start n : Nat) (blocked : List Nat) :
    add_business_days start n blocked =
      (gainDay blocked)^[n] (next_working_day blocked start) := by
  unfold add_business_days
  by_cases hn : n = 0
  · simp [hn]
  · simp only [hn, if_false]
    set c := next_working_day blocked start with hc
    have hfuel : (n - 0 - 1) * blockedBound blocked +
        (next_working_day blocked (c + 1) - (c + 1)) + 1 ≤ n * blockedBound blocked := by
      simp only [Nat.sub_zero]
      have hb := next_working_day_lt_bound blocked (c + 1)
      have hb2 := le_next_working_day blocked (c + 1)
      have hbb : 9 ≤ blockedBound blocked := by unfold blockedBound; omega
      have hsplit : n * blockedBound blocked =
          (n - 1) * blockedBound blocked + blockedBound blocked := by
        have h1 : n = (n - 1) + 1 := by omega
        conv_lhs => rw [h1]
        rw [Nat.succ_mul]
      omega
    rw [add_business_days_aux_eq_iter blocked (n * blockedBound blocked) c 0 n (by omega) hfuel]
    simp

theorem gainDay_iter_valid (blocked : List Nat) (start n : Nat) :
    validDay blocked ((gainDay blocked)^[n] (next_working_day blocked start)) = true := by
  induction n with
  | zero => simpa using next_working_day_valid blocked start
  | succ m ih =>
      rw [Function.iterate_succ_apply']
      exact next_working_day_valid blocked _

/-- The result of `add_business_days` is always a valid working day:
both return paths of the function produce a non-weekend, non-blocked
day. -/
theorem add_business_days_valid (start n : Nat) (blocked : List Nat) :
    validDay blocked (add_business_days start n blocked) = true := by
  rw [add_business_days_eq_iter]
  exact gainDay_iter_valid blocked start n

theorem le_gainDay (blocked : List Nat) (c : Nat) : c < gainDay blocked c := by
  unfold gainDay
  have := le_next_working_day blocked (c + 1)
  omega

theorem start_le_add_business_days (start n : Nat) (blocked : List Nat) :
    next_working_day blocked start ≤ add_business_days start n blocked := by
  rw [add_business_days_eq_iter]
  induction n with
  | zero => simp
  | succ m ih =>
      rw [Function.iterate_succ_apply']
      have := le_gainDay blocked ((gainDay blocked)^[m] (next_working_day blocked start))
      omega

theorem add_business_days_zero (start : Nat) (blocked : List Nat) :
    add_business_days start 0 blocked = next_working_day blocked start := by
  rfl

/-! ## Preservation lemmas -/

theorem set_self_of_getElem {α : Type} (l : List α) (i : Nat) (a : α) (h : l[i]? = some a) :
    l.set i a = l := by
  apply List.ext_getElem?
  intro j
  by_cases hij : i = j
  · subst hij
    obtain ⟨hlt, hv⟩ := List.getElem?_eq_some.mp h
    rw [List.getElem?_set_eq_of_lt a hlt, h]
  · rw [List.getElem?_set_ne hij]

theorem critInner_core (i : Nat) : ∀ (sids : List Nat) (ts : List STask),
    (critInner ts i sids).map coreOf = ts.map coreOf := by
  intro sids
  induction sids with
  | nil => intro ts; rfl
  | cons sid rest ih =>
      intro ts
      show (critInner ts i (sid :: rest)).map coreOf = ts.map coreOf
      rw [critInner]
      cases hfind : taskMapFind ts sid with
      | none => exact ih ts
      | some succ =>
          cases hget : ts[i]? with
          | none => exact ih ts
          | some t =>
              by_cases hc : (succ.is_critical && decide (succ.early_start ≤ t.early_finish)) = true
              · simp only [hc, if_true]
                rw [ih]
                rw [List.map_set]
                have hco : coreOf { t with is_critical := true } = coreOf t := rfl
                rw [hco]
                apply set_self_of_getElem
                rw [List.getElem?_map, hget]
                rfl
              · simp only [hc, if_false]
                exact ih ts

theorem critSweep_core : ∀ (order : List Nat) (ts : List STask),
    (critSweep ts order).map coreOf = ts.map coreOf := by
  intro order
  induction order with
  | nil => intro ts; rfl
  | cons i rest ih =>
      intro ts
      rw [critSweep]
      cases hget : ts[i]? with
      | none => exact ih ts
      | some t =>
          rw [ih, critInner_core]

theorem seedCritical_core (m : Nat) (ts : List STask) :
    (seedCritical m ts).map coreOf = ts.map coreOf := by
  unfold seedCritical
  rw [List.map_map]
  rfl

theorem critPhase_core (ps : Nat) (ts : List STask) :
    (critPhase ps ts).map coreOf = ts.map coreOf := by
  unfold critPhase
  rw [critSweep_core, seedCritical_core]

theorem critPhase_core_at (ps : Nat) (ts : List STask) (j : Nat) :
    ((critPhase ps ts)[j]?).map coreOf = (ts[j]?).map coreOf := by
  rw [← List.getElem?_map, ← List.getElem?_map, critPhase_core]

theorem next_working_day_idem (blocked : List Nat) (d : Nat) :
    next_working_day blocked (next_working_day blocked d) = next_working_day blocked d :=
  next_working_day_eq_of_valid blocked _ (next_working_day_valid blocked d)

/-- Step equation of `passAux` when position `i` is out of range. -/
theorem passAux_succ_none (ps : Nat) (bl : List Nat) (rem i : Nat) (ts : List STask)
    (ch : Bool) (h : ts[i]? = none) :
    passAux ps bl (rem + 1) i ts ch = (ts, ch) := by
  rw [passAux, h]

/-- Step equation of `passAux` at an in-range position. -/
theorem passAux_succ_some (ps : Nat) (bl : List Nat) (rem i : Nat) (ts : List STask)
    (ch : Bool) (t : STask) (h : ts[i]? = some t) :
    passAux ps bl (rem + 1) i ts ch =
      if t.early_start < newStartFor ps bl ts t then
        passAux ps bl rem (i + 1)
          (ts.set i { t with
            early_start := newStartFor ps bl ts t
            early_finish := add_business_days (newStartFor ps bl ts t) t.duration bl }) true
      else passAux ps bl rem (i + 1) ts ch := by
  rw [passAux, h]

theorem passAux_static (ps : Nat) (bl : List Nat) :
    ∀ rem i (ts : List STask) (ch : Bool),
      ((passAux ps bl rem i ts ch).1).map staticOf = ts.map staticOf := by
  intro rem
  induction rem with
  | zero => intro i ts ch; rfl
  | succ rem ih =>
      intro i ts ch
      cases hget : ts[i]? with
      | none => rw [passAux_succ_none ps bl rem i ts ch hget]
      | some t =>
          rw [passAux_succ_some ps bl rem i ts ch t hget]
          by_cases hlt : t.early_start < newStartFor ps bl ts t
          · rw [if_pos hlt, ih]
            rw [List.map_set]
            have hst : staticOf { t with
                early_start := newStartFor ps bl ts t
                early_finish := add_business_days (newStartFor ps bl ts t) t.duration bl } =
                staticOf t := rfl
            rw [hst]
            apply set_self_of_getElem
            rw [List.getElem?_map, hget]
            rfl
          · rw [if_neg hlt]
            exact ih (i + 1) ts ch

theorem passAux_length (ps : Nat) (bl : List Nat) (rem i : Nat) (ts : List STask) (ch : Bool) :
    ((passAux ps bl rem i ts ch).1).length = ts.length := by
  have h := congrArg List.length (passAux_static ps bl rem i ts ch)
  simpa using h

theorem passAux_es_le (ps : Nat) (bl : List Nat) :
    ∀ rem i (ts : List STask) (ch : Bool) (j : Nat) (t0 t1 : STask), ts[j]? = some t0 →
      ((passAux ps bl rem i ts ch).1)[j]? = some t1 →
      t0.early_start ≤ t1.early_start := by
  intro rem
  induction rem with
  | zero =>
      intro i ts ch j t0 t1 h0 h1
      simp only [passAux] at h1
      rw [h0] at h1
      cases h1
      exact le_rfl
  | succ rem ih =>
      intro i ts ch j t0 t1 h0 h1
      cases hget : ts[i]? with
      | none =>
          rw [passAux_succ_none ps bl rem i ts ch hget] at h1
          rw [h0] at h1
          cases h1
          exact le_rfl
      | some t =>
          rw [passAux_succ_some ps bl rem i ts ch t hget] at h1
          by_cases hlt : t.early_start < newStartFor ps bl ts t
          · rw [if_pos hlt] at h1
            by_cases hij : i = j
            · subst hij
              rw [hget] at h0
              cases h0
              have hltlen : i < ts.length := (List.getElem?_eq_some.mp hget).1
              have hset : (ts.set i { t0 with
                  early_start := newStartFor ps bl ts t0
                  early_finish := add_business_days (newStartFor ps bl ts t0) t0.duration bl })[i]? =
                  some { t0 with
                    early_start := newStartFor ps bl ts t0
                    early_finish := add_business_days (newStartFor ps bl ts t0) t0.duration bl } :=
                List.getElem?_set_eq_of_lt _ hltlen
              have hchain := ih (i + 1) _ true i _ t1 hset h1
              exact le_trans (le_of_lt hlt) hchain
            · have hset : (ts.set i { t with
                  early_start := newStartFor ps bl ts t
                  early_finish := add_business_days (newStartFor ps bl ts t) t.duration bl })[j]? =
                  some t0 := by
                rw [List.getElem?_set_ne hij]
                exact h0
              exact ih (i + 1) _ true j t0 t1 hset h1
          · rw [if_neg hlt] at h1
            exact ih (i + 1) ts ch j t0 t1 h0 h1

theorem passAux_ef_inv (ps : Nat) (bl : List Nat) :
    ∀ rem i (ts : List STask) (ch : Bool),
      (∀ (j : Nat) (t : STask), ts[j]? = some t →
        t.early_finish = add_business_days t.early_start t.duration bl) →
      ∀ (j : Nat) (t : STask), ((passAux ps bl rem i ts ch).1)[j]? = some t →
        t.early_finish = add_business_days t.early_start t.duration bl := by
  intro rem
  induction rem with
  | zero =>
      intro i ts ch hinv j t h1
      exact hinv j t h1
  | succ rem ih =>
      intro i ts ch hinv j t h1
      cases hget : ts[i]? with
      | none =>
          rw [passAux_succ_none ps bl rem i ts ch hget] at h1
          exact hinv j t h1
      | some u =>
          rw [passAux_succ_some ps bl rem i ts ch u hget] at h1
          by_cases hlt : u.early_start < newStartFor ps bl ts u
          · rw [if_pos hlt] at h1
            refine ih (i + 1) _ true ?_ j t h1
            intro k v hk
            by_cases hik : i = k
            · subst hik
              have hlen : i < ts.length := (List.getElem?_eq_some.mp hget).1
              rw [List.getElem?_set_eq_of_lt _ hlen] at hk
              cases hk
              rfl
            · rw [List.getElem?_set_ne hik] at hk
              exact hinv k v hk
          · rw [if_neg hlt] at h1
            exact ih (i + 1) ts ch hinv j t h1

theorem passAux_nodep (ps : Nat) (bl : List Nat) :
    ∀ rem i (ts : List STask) (ch : Bool) (j : Nat) (t : STask),
      ts[j]? = some t → t.dep_list = [] →
      t.early_start = add_business_days ps 0 bl →
      ∃ t2 : STask, ((passAux ps bl rem i ts ch).1)[j]? = some t2 ∧ t2.dep_list = [] ∧
        t2.early_start = add_business_days ps 0 bl := by
  intro rem
  induction rem with
  | zero =>
      intro i ts ch j t h0 hdep hes
      exact ⟨t, h0, hdep, hes⟩
  | succ rem ih =>
      intro i ts ch j t h0 hdep hes
      cases hget : ts[i]? with
      | none =>
          rw [passAux_succ_none ps bl rem i ts ch hget]
          exact ⟨t, h0, hdep, hes⟩
      | some u =>
          rw [passAux_succ_some ps bl rem i ts ch u hget]
          by_cases hlt : u.early_start < newStartFor ps bl ts u
          · rw [if_pos hlt]
            by_cases hij : i = j
            · subst hij
              rw [hget] at h0
              cases h0
              exfalso
              have hns : newStartFor ps bl ts t = t.early_start := by
                unfold newStartFor
                rw [hdep]
                simp only [List.isEmpty_nil, if_true]
                rw [hes, add_business_days_zero, add_business_days_zero,
                  next_working_day_idem]
              rw [hns] at hlt
              exact lt_irrefl _ hlt
            · have hset : (ts.set i { u with
                  early_start := newStartFor ps bl ts u
                  early_finish := add_business_days (newStartFor ps bl ts u) u.duration bl })[j]? =
                  some t := by
                rw [List.getElem?_set_ne hij]
                exact h0
              exact ih (i + 1) _ true j t hset hdep hes
          · rw [if_neg hlt]
            exact ih (i + 1) ts ch j t h0 hdep hes

theorem passAux_flag (ps : Nat) (bl : List Nat) :
    ∀ rem i (ts : List STask), (passAux ps bl rem i ts true).2 = true := by
  intro rem
  induction rem with
  | zero => intro i ts; rfl
  | succ rem ih =>
      intro i ts
      cases hget : ts[i]? with
      | none => rw [passAux_succ_none ps bl rem i ts true hget]
      | some t =>
          rw [passAux_succ_some ps bl rem i ts true t hget]
          by_cases hlt : t.early_start < newStartFor ps bl ts t
          · rw [if_pos hlt]
            exact ih (i + 1) _
          · rw [if_neg hlt]
            exact ih (i + 1) ts

theorem passAux_unchanged (ps : Nat) (bl : List Nat) :
    ∀ rem i (ts : List STask), (passAux ps bl rem i ts false).2 = false →
      (passAux ps bl rem i ts false).1 = ts ∧
      ∀ (k : Nat) (t : STask), i ≤ k → k < i + rem → ts[k]? = some t →
        newStartFor ps bl ts t ≤ t.early_start := by
  intro rem
  induction rem with
  | zero =>
      intro i ts hfl
      exact ⟨rfl, fun k t hik hkr hk => by omega⟩
  | succ rem ih =>
      intro i ts hfl
      cases hget : ts[i]? with
      | none =>
          rw [passAux_succ_none ps bl rem i ts false hget] at hfl ⊢
          refine ⟨rfl, ?_⟩
          intro k t hik hkr hk
          have hklen : k < ts.length := (List.getElem?_eq_some.mp hk).1
          have hilen : ts.length ≤ i := List.getElem?_eq_none_iff.mp hget
          omega
      | some t =>
          rw [passAux_succ_some ps bl rem i ts false t hget] at hfl ⊢
          by_cases hlt : t.early_start < newStartFor ps bl ts t
          · exfalso
            rw [if_pos hlt] at hfl
            rw [passAux_flag ps bl rem (i + 1) _] at hfl
            exact Bool.noConfusion hfl
          · rw [if_neg hlt] at hfl ⊢
            obtain ⟨hfst, hcond⟩ := ih (i + 1) ts hfl
            refine ⟨hfst, ?_⟩
            intro k u hik hkr hk
            by_cases hik2 : i = k
            · subst hik2
              rw [hget] at hk
              cases hk
              omega
            · exact hcond k u (by omega) (by omega) hk

theorem passOnce_static (ps : Nat) (bl : List Nat) (ts : List STask) :
    ((passOnce ps bl ts).1).map staticOf = ts.map staticOf :=
  passAux_static ps bl ts.length 0 ts false

theorem passOnce_length (ps : Nat) (bl : List Nat) (ts : List STask) :
    ((passOnce ps bl ts).1).length = ts.length :=
  passAux_length ps bl ts.length 0 ts false

theorem forwardLoop_static (ps : Nat) (bl : List Nat) :
    ∀ fuel (ts : List STask), (forwardLoop ps bl fuel ts).map staticOf = ts.map staticOf := by
  intro fuel
  induction fuel with
  | zero => intro ts; rfl
  | succ fuel ih =>
      intro ts
      rw [forwardLoop]
      by_cases hc : (passOnce ps bl ts).2 = true
      · rw [if_pos hc, ih, passOnce_static]
      · rw [if_neg hc, passOnce_static]

theorem forwardLoop_length (ps : Nat) (bl : List Nat) (fuel : Nat) (ts : List STask) :
    (forwardLoop ps bl fuel ts).length = ts.length := by
  have h := congrArg List.length (forwardLoop_static ps bl fuel ts)
  simpa using h

theorem forwardLoop_es_le (ps : Nat) (bl : List Nat) :
    ∀ fuel (ts : List STask) (j : Nat) (t0 t1 : STask), ts[j]? = some t0 →
      (forwardLoop ps bl fuel ts)[j]? = some t1 → t0.early_start ≤ t1.early_start := by
  intro fuel
  induction fuel with
  | zero =>
      intro ts j t0 t1 h0 h1
      rw [forwardLoop] at h1
      rw [h0] at h1
      cases h1
      exact le_rfl
  | succ fuel ih =>
      intro ts j t0 t1 h0 h1
      rw [forwardLoop] at h1
      have hjlen : j < ts.length := (List.getElem?_eq_some.mp h0).1
      have hjmid : j < ((passOnce ps bl ts).1).length := by
        rw [passOnce_length]; exact hjlen
      have hmid : ((passOnce ps bl ts).1)[j]? = some (((passOnce ps bl ts).1)[j]) :=
        List.getElem?_eq_getElem hjmid
      have hstep := passAux_es_le ps bl ts.length 0 ts false j t0 _ h0 hmid
      by_cases hc : (passOnce ps bl ts).2 = true
      · rw [if_pos hc] at h1
        exact le_trans hstep (ih _ j _ t1 hmid h1)
      · rw [if_neg hc] at h1
        rw [h1] at hmid
        cases hmid
        exact hstep

theorem forwardLoop_ef_inv (ps : Nat) (bl : List Nat) :
    ∀ fuel (ts : List STask),
      (∀ (j : Nat) (t : STask), ts[j]? = some t →
        t.early_finish = add_business_days t.early_start t.duration bl) →
      ∀ (j : Nat) (t : STask), (forwardLoop ps bl fuel ts)[j]? = some t →
        t.early_finish = add_business_days t.early_start t.duration bl := by
  intro fuel
  induction fuel with
  | zero =>
      intro ts hinv j t h1
      exact hinv j t h1
  | succ fuel ih =>
      intro ts hinv j t h1
      rw [forwardLoop] at h1
      have hmidinv := passAux_ef_inv ps bl ts.length 0 ts false hinv
      by_cases hc : (passOnce ps bl ts).2 = true
      · rw [if_pos hc] at h1
        exact ih _ hmidinv j t h1
      · rw [if_neg hc] at h1
        exact hmidinv j t h1

theorem forwardLoop_nodep (ps : Nat) (bl : List Nat) :
    ∀ fuel (ts : List STask) (j : Nat) (t : STask),
      ts[j]? = some t → t.dep_list = [] →
      t.early_start = add_business_days ps 0 bl →
      ∃ t2 : STask, (forwardLoop ps bl fuel ts)[j]? = some t2 ∧ t2.dep_list = [] ∧
        t2.early_start = add_business_days ps 0 bl := by
  intro fuel
  induction fuel with
  | zero =>
      intro ts j t h0 hdep hes
      exact ⟨t, h0, hdep, hes⟩
  | succ fuel ih =>
      intro ts j t h0 hdep hes
      rw [forwardLoop]
      obtain ⟨t2, h2, hdep2, hes2⟩ := passAux_nodep ps bl ts.length 0 ts false j t h0 hdep hes
      by_cases hc : (passOnce ps bl ts).2 = true
      · rw [if_pos hc]
        exact ih _ j t2 h2 hdep2 hes2
      · rw [if_neg hc]
        exact ⟨t2, h2, hdep2, hes2⟩

/-- The loop runs at most `fuel` passes, its result is exactly that
many full passes applied in order, and when it stops before the cap
the last state is a fixed point of the pass. -/
theorem forwardLoop_count_spec (ps : Nat) (bl : List Nat) :
    ∀ fuel (ts : List STask),
      forwardLoopCount ps bl fuel ts ≤ fuel ∧
      forwardLoop ps bl fuel ts = passIter ps bl (forwardLoopCount ps bl fuel ts) ts ∧
      (forwardLoopCount ps bl fuel ts < fuel →
        (passOnce ps bl (forwardLoop ps bl fuel ts)).2 = false) := by
  intro fuel
  induction fuel with
  | zero =>
      intro ts
      exact ⟨le_rfl, rfl, fun h => absurd h (by omega)⟩
  | succ fuel ih =>
      intro ts
      rw [forwardLoop, forwardLoopCount]
      by_cases hc : (passOnce ps bl ts).2 = true
      · rw [if_pos hc, if_pos hc]
        obtain ⟨ihle, ihiter, ihstop⟩ := ih (passOnce ps bl ts).1
        refine ⟨by omega, ?_, ?_⟩
        · rw [ihiter]
          unfold passIter
          rw [Function.iterate_succ_apply]
        · intro hlt
          exact ihstop (by omega)
      · rw [if_neg hc, if_neg hc]
        have hfl : (passOnce ps bl ts).2 = false := by
          cases hb : (passOnce ps bl ts).2
          · rfl
          · exact absurd hb hc
        refine ⟨by omega, ?_, ?_⟩
        · unfold passIter
          rw [Function.iterate_one]
        · intro _
          have hfix := (passAux_unchanged ps bl ts.length 0 ts hfl).1
          show (passOnce ps bl (passOnce ps bl ts).1).2 = false
          rw [show (passOnce ps bl ts).1 = ts from hfix]
          exact hfl

/-- On a converged state, no task's candidate start exceeds its
current start. -/
theorem converged_cond (ps : Nat) (bl : List Nat) (ts : List STask)
    (h : Converged ps bl ts) :
    ∀ (k : Nat) (t : STask), ts[k]? = some t →
      newStartFor ps bl ts t ≤ t.early_start := by
  intro k t hk
  have hu := passAux_unchanged ps bl ts.length 0 ts h
  have hklen : k < ts.length := (List.getElem?_eq_some.mp hk).1
  exact hu.2 k t (by omega) (by omega) hk

theorem foldl_max_le (l : List Nat) : ∀ b : Nat,
    b ≤ l.foldl max b ∧ ∀ a ∈ l, a ≤ l.foldl max b := by
  induction l with
  | nil => intro b; exact ⟨le_rfl, by simp⟩
  | cons x xs ih =>
      intro b
      constructor
      · exact le_trans (le_max_left b x) (ih (max b x)).1
      · intro a ha
        rcases List.mem_cons.mp ha with h | h
        · subst h
          exact le_trans (le_max_right b a) (ih (max b a)).1
        · exact (ih (max b x)).2 a h

theorem initTask_ef (ps : Nat) (bl : List Nat) (t : TaskIn) :
    (initTask ps bl t).early_finish =
      add_business_days (initTask ps bl t).early_start t.duration bl := rfl

theorem initTask_override (ps : Nat) (bl : List Nat) (t : TaskIn) (d : Nat)
    (h : t.start_date_override = some d) : (initTask ps bl t).early_start = d := by
  unfold initTask
  rw [h]

theorem initTask_no_override (ps : Nat) (bl : List Nat) (t : TaskIn)
    (h : t.start_date_override = none) :
    (initTask ps bl t).early_start = add_business_days ps 0 bl := by
  unfold initTask
  rw [h]

theorem initTask_dep (ps : Nat) (bl : List Nat) (t : TaskIn) :
    (initTask ps bl t).dep_list = t.dependencies.getD [] := rfl

theorem initStage_ef_inv (tasks : List TaskIn) (proj : Option Nat)
    (blocked : Option (List Nat)) (today : Nat) :
    ∀ (j : Nat) (t : STask), (initStage tasks proj blocked today)[j]? = some t →
      t.early_finish = add_business_days t.early_start t.duration (effBlocked blocked) := by
  intro j t h
  unfold initStage at h
  rw [List.getElem?_map] at h
  cases hj : tasks[j]? with
  | none => rw [hj] at h; cases h
  | some tin =>
      rw [hj] at h
      cases h
      exact initTask_ef _ _ tin

/-! ## Equivalence of the coded sweep and the spec-worded sweep -/

theorem stask_update_self (t : STask) :
    ({ t with is_critical := t.is_critical } : STask) = t := rfl

theorem stask_mark_marked (t : STask) (h : t.is_critical = true) :
    ({ t with is_critical := true } : STask) = t := by
  rw [← h]

theorem critInner_of_marked (i : Nat) :
    ∀ (sids : List Nat) (ts : List STask) (t : STask), ts[i]? = some t →
      t.is_critical = true → critInner ts i sids = ts := by
  intro sids
  induction sids with
  | nil => intro ts t hget hcrit; rfl
  | cons sid rest ih =>
      intro ts t hget hcrit
      rw [critInner]
      cases hfind : taskMapFind ts sid with
      | none =>
          simp only [hfind, hget]
          exact ih ts t hget hcrit
      | some succ =>
          simp only [hfind, hget]
          by_cases hc : (succ.is_critical && decide (succ.early_start ≤ t.early_finish)) = true
          · rw [if_pos hc, stask_mark_marked t hcrit, set_self_of_getElem ts i t hget]
            exact ih ts t hget hcrit
          · rw [if_neg hc]
            exact ih ts t hget hcrit

theorem critInner_eq_check (i : Nat) :
    ∀ (sids : List Nat) (ts : List STask) (t : STask), ts[i]? = some t →
      critInner ts i sids =
        if sids.any (chkSucc ts t) then ts.set i { t with is_critical := true } else ts := by
  intro sids
  induction sids with
  | nil =>
      intro ts t hget
      simp [critInner]
  | cons sid rest ih =>
      intro ts t hget
      rw [critInner]
      rw [List.any_cons]
      cases hfind : taskMapFind ts sid with
      | none =>
          have hchk : chkSucc ts t sid = false := by
            unfold chkSucc
            rw [hfind]
          simp only [hfind, hget, hchk, Bool.false_or]
          exact ih ts t hget
      | some succ =>
          have hchk : chkSucc ts t sid =
              (succ.is_critical && decide (succ.early_start ≤ t.early_finish)) := by
            unfold chkSucc
            rw [hfind]
          simp only [hfind, hget, hchk]
          by_cases hc : (succ.is_critical && decide (succ.early_start ≤ t.early_finish)) = true
          · rw [if_pos hc]
            have hlen : i < ts.length := (List.getElem?_eq_some.mp hget).1
            have hget2 : (ts.set i { t with is_critical := true })[i]? =
                some { t with is_critical := true } :=
              List.getElem?_set_eq_of_lt _ hlen
            rw [critInner_of_marked i rest _ _ hget2 rfl]
            rw [hc]
            simp
          · rw [if_neg hc]
            have hc2 : (succ.is_critical && decide (succ.early_start ≤ t.early_finish)) = false := by
              cases hb : (succ.is_critical && decide (succ.early_start ≤ t.early_finish))
              · rfl
              · exact absurd hb hc
            rw [hc2]
            simp only [Bool.false_or]
            exact ih ts t hget

theorem critStep_eq (ts : List STask) (i : Nat) (t : STask) (hget : ts[i]? = some t) :
    critInner ts i (successorsOf ts t.id) = critSpecStep ts i := by
  have hstep : critSpecStep ts i =
      ts.set i { t with
        is_critical := t.is_critical || (successorsOf ts t.id).any (chkSucc ts t) } := by
    rw [critSpecStep, hget]
  rw [hstep, critInner_eq_check i (successorsOf ts t.id) ts t hget]
  by_cases hd : (successorsOf ts t.id).any (chkSucc ts t) = true
  · rw [if_pos hd, hd]
    have hor : (t.is_critical || true) = true := Bool.or_true _
    rw [hor]
  · have hd2 : (successorsOf ts t.id).any (chkSucc ts t) = false := by
      cases hb : (successorsOf ts t.id).any (chkSucc ts t)
      · rfl
      · exact absurd hb hd
    rw [if_neg hd, hd2]
    have hor : (t.is_critical || false) = t.is_critical := Bool.or_false _
    rw [hor, stask_update_self, set_self_of_getElem ts i t hget]

theorem critSweep_eq_spec : ∀ (order : List Nat) (ts : List STask),
    critSweep ts order = critSpecSweep ts order := by
  intro order
  induction order with
  | nil => intro ts; rfl
  | cons i rest ih =>
      intro ts
      rw [critSweep, critSpecSweep]
      cases hget : ts[i]? with
      | none =>
          have hstep : critSpecStep ts i = ts := by
            rw [critSpecStep, hget]
          rw [hstep]
          exact ih ts
      | some t =>
          show critSweep (critInner ts i (successorsOf ts t.id)) rest =
            critSpecSweep (critSpecStep ts i) rest
          rw [critStep_eq ts i t hget]
          exact ih (critSpecStep ts i)

theorem critPhase_eq_spec (ps : Nat) (ts : List STask) :
    critPhase ps ts = critSpecPhase ps ts := by
  unfold critPhase critSpecPhase
  exact critSweep_eq_spec _ _

/-! ## Transferring scheduling data through the criticality phase -/

theorem coreOf_id {u t : STask} (h : coreOf u = coreOf t) : u.id = t.id :=
  congrArg (fun p => p.1) h

theorem coreOf_duration {u t : STask} (h : coreOf u = coreOf t) : u.duration = t.duration :=
  congrArg (fun p => p.2.1) h

theorem coreOf_dep {u t : STask} (h : coreOf u = coreOf t) : u.dep_list = t.dep_list :=
  congrArg (fun p => p.2.2.2.1) h

theorem coreOf_es {u t : STask} (h : coreOf u = coreOf t) : u.early_start = t.early_start :=
  congrArg (fun p => p.2.2.2.2.1) h

theorem coreOf_ef {u t : STask} (h : coreOf u = coreOf t) : u.early_finish = t.early_finish :=
  congrArg (fun p => p.2.2.2.2.2) h

theorem find?_core (pid : Nat) : ∀ (l m : List STask), l.map coreOf = m.map coreOf →
    Option.map coreOf (List.find? (fun u => u.id == pid) l) =
    Option.map coreOf (List.find? (fun u => u.id == pid) m) := by
  intro l
  induction l with
  | nil =>
      intro m h
      cases m with
      | nil => rfl
      | cons b m2 => simp at h
  | cons a l2 ih =>
      intro m h
      cases m with
      | nil => simp at h
      | cons b m2 =>
          simp only [List.map_cons, List.cons.injEq] at h
          obtain ⟨hab, hlm⟩ := h
          have hid : a.id = b.id := coreOf_id hab
          by_cases hpa : (a.id == pid) = true
          · rw [List.find?_cons_of_pos l2 hpa]
            have hpb : (b.id == pid) = true := by rw [← hid]; exact hpa
            rw [List.find?_cons_of_pos m2 hpb]
            simp [hab]
          · have hpa2 : (a.id == pid) = false := by
              cases hb2 : (a.id == pid)
              · rfl
              · exact absurd hb2 hpa
            have hpb2 : (b.id == pid) = false := by rw [← hid]; exact hpa2
            rw [List.find?_cons_of_neg l2 (by simp [hpa2]),
              List.find?_cons_of_neg m2 (by simp [hpb2])]
            exact ih m2 hlm

theorem taskMapFind_core (ts ts2 : List STask) (h : ts.map coreOf = ts2.map coreOf)
    (pid : Nat) :
    Option.map coreOf (taskMapFind ts pid) = Option.map coreOf (taskMapFind ts2 pid) := by
  unfold taskMapFind
  apply find?_core
  rw [List.map_reverse, List.map_reverse, h]

/-- Shared helper: in the output of `calculate_schedule_dates`, every
task's `early_finish` is `add_business_days` of its `early_start` and
`duration` over the effective blocked set. -/
theorem calc_ef_eq (tasks : List TaskIn) (proj : Option Nat) (blocked : Option (List Nat))
    (today : Nat) (t : STask)
    (ht : t ∈ calculate_schedule_dates tasks proj blocked today) :
    t.early_finish = add_business_days t.early_start t.duration (effBlocked blocked) := by
  by_cases hemp : tasks.isEmpty
  · rw [calculate_schedule_dates, if_pos hemp] at ht
    simp at ht
  · rw [calculate_schedule_dates, if_neg hemp] at ht
    obtain ⟨j, hj⟩ := List.getElem?_of_mem ht
    have hcore := critPhase_core_at (effStart proj today) (fwdStage tasks proj blocked today) j
    rw [hj] at hcore
    cases hu : (fwdStage tasks proj blocked today)[j]? with
    | none => rw [hu] at hcore; simp at hcore
    | some u =>
        rw [hu] at hcore
        have hcu : coreOf t = coreOf u := by
          simpa using hcore
        have hef := forwardLoop_ef_inv (effStart proj today) (effBlocked blocked)
          tasks.length (initStage tasks proj blocked today)
          (initStage_ef_inv tasks proj blocked today) j u hu
        rw [coreOf_ef hcu, coreOf_es hcu, coreOf_duration hcu]
        exact hef

/-! ## Claim theorems -/

/-- Claim C1, counterexample: for project start day 0 (Monday
2024-01-01), a single task of duration 5 with no dependencies, no
override, and no blocked dates, `calculate_schedule_dates` does NOT
produce end date day 4 (2024-01-05): duration does not span 5 valid
working days inclusive of the start day. -/
theorem c1_scenario_a_counterexample :
    ¬ ((calculate_schedule_dates [⟨1, 5, none, some []⟩] (some 0) (some []) 0).map
        (fun t => t.early_finish) = [4]) := by
  decide

/-- Claim C1, amended: in the same scenario the end date is day 7
(Monday 2024-01-08), the 5th valid working day strictly after the
normalized start day — the duration is counted exclusive of the start
day. -/
theorem c1_scenario_a_amended :
    (calculate_schedule_dates [⟨1, 5, none, some []⟩] (some 0) (some []) 0).map
      (fun t => (t.early_start, t.early_finish)) = [(0, 7)] := by
  decide

/-- Claim C2: for every task in the output of
`calculate_schedule_dates`, the stored `early_finish` equals
`add_business_days early_start duration blocked` — the stored finish
is reachable from the stored start by advancing exactly `duration`
valid working days. -/
theorem c2_round_trip (tasks : List TaskIn) (proj : Option Nat)
    (blocked : Option (List Nat)) (today : Nat) (t : STask)
    (ht : t ∈ calculate_schedule_dates tasks proj blocked today) :
    t.early_finish = add_business_days t.early_start t.duration (effBlocked blocked) :=
  calc_ef_eq tasks proj blocked today t ht

/-- Witness for C2 at a concrete input. -/
theorem c2_round_trip_witness :
    (STask.mk 1 5 none [] 0 7 true).early_finish =
      add_business_days (STask.mk 1 5 none [] 0 7 true).early_start
        (STask.mk 1 5 none [] 0 7 true).duration (effBlocked (some [])) :=
  c2_round_trip [⟨1, 5, none, some []⟩] (some 0) (some []) 0
    (STask.mk 1 5 none [] 0 7 true) (by decide)

/-- Claim C5: criticality classification in
`calculate_schedule_dates` follows the backward-propagation policy as
worded by the spec: seed every task with
`early_finish >= project max finish`, then process tasks in
descending `early_finish` order, additionally marking a task whenever
some successor already marked critical satisfies
`task.early_finish >= successor.early_start`, and mark no other
task (`critSpecPhase` is modelled from those words). -/
theorem c5_criticality_policy :
    (∀ (ps : Nat) (ts : List STask), critPhase ps ts = critSpecPhase ps ts) ∧
    (∀ (tasks : List TaskIn) (proj : Option Nat) (blocked : Option (List Nat)) (today : Nat),
      calculate_schedule_dates tasks proj blocked today =
        if tasks.isEmpty then []
        else critSpecPhase (effStart proj today) (fwdStage tasks proj blocked today)) := by
  constructor
  · exact critPhase_eq_spec
  · intro tasks proj blocked today
    rw [calculate_schedule_dates, critPhase_eq_spec]

/-- Claim C7: the forward pass executes at most `len(tasks)` full
passes, its result is exactly that many passes applied in sequence,
and when it stops below the cap the final state is converged (a full
pass changes no task) — so the solver always returns a bounded
result, cycles included. -/
theorem c7_pass_cap (tasks : List TaskIn) (proj : Option Nat)
    (blocked : Option (List Nat)) (today : Nat) :
    forwardLoopCount (effStart proj today) (effBlocked blocked) tasks.length
        (initStage tasks proj blocked today) ≤ tasks.length ∧
    fwdStage tasks proj blocked today =
      passIter (effStart proj today) (effBlocked blocked)
        (forwardLoopCount (effStart proj today) (effBlocked blocked) tasks.length
          (initStage tasks proj blocked today))
        (initStage tasks proj blocked today) ∧
    (forwardLoopCount (effStart proj today) (effBlocked blocked) tasks.length
        (initStage tasks proj blocked today) < tasks.length →
      Converged (effStart proj today) (effBlocked blocked)
        (fwdStage tasks proj blocked today)) :=
  forwardLoop_count_spec (effStart proj today) (effBlocked blocked) tasks.length
    (initStage tasks proj blocked today)

/-- Witness for C7: with two independent tasks the loop stops after a
single pass, below the cap of two, and the result is converged. -/
theorem c7_pass_cap_witness :
    Converged (effStart (some 0) 0) (effBlocked (some []))
      (fwdStage [⟨1, 1, none, some []⟩, ⟨2, 1, none, some []⟩] (some 0) (some []) 0) :=
  (c7_pass_cap [⟨1, 1, none, some []⟩, ⟨2, 1, none, some []⟩] (some 0) (some []) 0).2.2
    (by decide)

/-- Claim C8: `calculate_schedule_dates` never fails on degenerate
input: an empty task list is returned unchanged; a missing or
unparsable project start is replaced by today's date; an unparsable
blocked-dates JSON is replaced by the empty set; and an unparsable
dependencies field yields an empty dependency list — in every case
the (total) computation continues. -/
theorem c8_failure_semantics :
    (∀ (proj : Option Nat) (blocked : Option (List Nat)) (today : Nat),
      calculate_schedule_dates [] proj blocked today = []) ∧
    (∀ (tasks : List TaskIn) (blocked : Option (List Nat)) (today : Nat),
      calculate_schedule_dates tasks none blocked today =
        calculate_schedule_dates tasks (some today) blocked today) ∧
    (∀ (tasks : List TaskIn) (proj : Option Nat) (today : Nat),
      calculate_schedule_dates tasks proj none today =
        calculate_schedule_dates tasks proj (some []) today) ∧
    (∀ (ps : Nat) (bl : List Nat) (t : TaskIn), t.dependencies = none →
      (initTask ps bl t).dep_list = []) := by
  refine ⟨fun proj blocked today => rfl, fun tasks blocked today => rfl,
    fun tasks proj today => rfl, ?_⟩
  intro ps bl t h
  rw [initTask_dep, h]
  rfl

/-- Witness for C8 at a concrete input with an unparsable
dependencies field. -/
theorem c8_failure_semantics_witness :
    (initTask 0 [] ⟨1, 5, none, none⟩).dep_list = [] :=
  c8_failure_semantics.2.2.2 0 [] ⟨1, 5, none, none⟩ rfl

/-- Claim C9: `add_business_days d 0 blocked` returns `d` normalized
to the next valid working day: the result is a valid working day, it
equals `d` exactly when `d` is a weekday not in `blocked`, and
otherwise it is strictly later — so a zero-duration call does not in
general return its input unchanged. -/
theorem c9_zero_duration (d : Nat) (bl : List Nat) :
    validDay bl (add_business_days d 0 bl) = true ∧
    (add_business_days d 0 bl = d ↔ validDay bl d = true) ∧
    (validDay bl d = false → d < add_business_days d 0 bl) := by
  rw [add_business_days_zero]
  refine ⟨next_working_day_valid bl d, ⟨?_, next_working_day_eq_of_valid bl d⟩, ?_⟩
  · intro h
    rw [← h]
    exact next_working_day_valid bl d
  · exact lt_next_working_day_of_invalid bl d

/-- Witness for C9: day 5 (Saturday 2024-01-06) is pushed strictly
later by a zero-duration call. -/
theorem c9_zero_duration_witness : 5 < add_business_days 5 0 [] :=
  (c9_zero_duration 5 []).2.2 (by decide)

/-- Claim C10: for every task in the output of
`calculate_schedule_dates`, the computed finish (the task's
`end_date`) is a valid working day — a weekday not contained in the
effective blocked set — for every duration, overrides included,
because every finish is produced by `add_business_days`. -/
theorem c10_end_date_valid (tasks : List TaskIn) (proj : Option Nat)
    (blocked : Option (List Nat)) (today : Nat) (t : STask)
    (ht : t ∈ calculate_schedule_dates tasks proj blocked today) :
    validDay (effBlocked blocked) t.early_finish = true := by
  rw [calc_ef_eq tasks proj blocked today t ht]
  exact add_business_days_valid t.early_start t.duration (effBlocked blocked)

/-- Witness for C10 at a concrete input. -/
theorem c10_end_date_valid_witness :
    validDay (effBlocked (some [])) (STask.mk 1 2 (some 3) [] 3 7 true).early_finish = true :=
  c10_end_date_valid [⟨1, 2, some 3, some []⟩] (some 0) (some []) 0
    (STask.mk 1 2 (some 3) [] 3 7 true) (by decide)

/-- Claim C4: a task carrying a parseable `start_date_override D`
never ends up with `early_start < D`: the override is a floor that
dependency pressure can push later but never earlier. -/
theorem c4_override_floor (tasks : List TaskIn) (proj : Option Nat)
    (blocked : Option (List Nat)) (today : Nat) (i : Nat) (tIn : TaskIn) (D : Nat)
    (tOut : STask)
    (h1 : tasks[i]? = some tIn)
    (h2 : tIn.start_date_override = some D)
    (h3 : (calculate_schedule_dates tasks proj blocked today)[i]? = some tOut) :
    D ≤ tOut.early_start := by
  by_cases hemp : tasks.isEmpty
  · rw [calculate_schedule_dates, if_pos hemp] at h3
    simp at h3
  · rw [calculate_schedule_dates, if_neg hemp] at h3
    have hcore := critPhase_core_at (effStart proj today) (fwdStage tasks proj blocked today) i
    rw [h3] at hcore
    cases hu : (fwdStage tasks proj blocked today)[i]? with
    | none => rw [hu] at hcore; simp at hcore
    | some u =>
        rw [hu] at hcore
        have hcu : coreOf tOut = coreOf u := by simpa using hcore
        have hinit : (initStage tasks proj blocked today)[i]? =
            some (initTask (effStart proj today) (effBlocked blocked) tIn) := by
          unfold initStage
          rw [List.getElem?_map, h1]
          rfl
        have hmono := forwardLoop_es_le (effStart proj today) (effBlocked blocked)
          tasks.length (initStage tasks proj blocked today) i
          (initTask (effStart proj today) (effBlocked blocked) tIn) u hinit hu
        rw [initTask_override _ _ tIn D h2] at hmono
        rw [coreOf_es hcu]
        exact hmono

/-- Witness for C4: an override of day 3 on a dependency-free task is
kept as the start. -/
theorem c4_override_floor_witness : 3 ≤ (STask.mk 1 2 (some 3) [] 3 7 true).early_start :=
  c4_override_floor [⟨1, 2, some 3, some []⟩] (some 0) (some []) 0 0
    ⟨1, 2, some 3, some []⟩ 3 (STask.mk 1 2 (some 3) [] 3 7 true)
    (by decide) (by decide) (by decide)

/-- Claim C6: a task with no dependencies and no override starts
exactly at the project start normalized to the next valid working day
(weekends and blocked dates skipped). -/
theorem c6_nodep_start (tasks : List TaskIn) (proj : Option Nat)
    (blocked : Option (List Nat)) (today : Nat) (i : Nat) (tIn : TaskIn) (tOut : STask)
    (h1 : tasks[i]? = some tIn)
    (h2 : tIn.start_date_override = none)
    (h3 : tIn.dependencies.getD [] = [])
    (h4 : (calculate_schedule_dates tasks proj blocked today)[i]? = some tOut) :
    tOut.early_start = add_business_days (effStart proj today) 0 (effBlocked blocked) := by
  by_cases hemp : tasks.isEmpty
  · rw [calculate_schedule_dates, if_pos hemp] at h4
    simp at h4
  · rw [calculate_schedule_dates, if_neg hemp] at h4
    have hcore := critPhase_core_at (effStart proj today) (fwdStage tasks proj blocked today) i
    rw [h4] at hcore
    cases hu : (fwdStage tasks proj blocked today)[i]? with
    | none => rw [hu] at hcore; simp at hcore
    | some u =>
        rw [hu] at hcore
        have hcu : coreOf tOut = coreOf u := by simpa using hcore
        have hinit : (initStage tasks proj blocked today)[i]? =
            some (initTask (effStart proj today) (effBlocked blocked) tIn) := by
          unfold initStage
          rw [List.getElem?_map, h1]
          rfl
        have hdep0 : (initTask (effStart proj today) (effBlocked blocked) tIn).dep_list = [] := by
          rw [initTask_dep]
          exact h3
        have hes0 := initTask_no_override (effStart proj today) (effBlocked blocked) tIn h2
        obtain ⟨t2, h2get, _, hes2⟩ := forwardLoop_nodep (effStart proj today)
          (effBlocked blocked) tasks.length (initStage tasks proj blocked today) i
          (initTask (effStart proj today) (effBlocked blocked) tIn) hinit hdep0 hes0
        have h2get2 : (fwdStage tasks proj blocked today)[i]? = some t2 := h2get
        rw [hu] at h2get2
        cases h2get2
        rw [coreOf_es hcu]
        exact hes2

/-- Witness for C6: a project starting on Saturday day 5 yields start
day 7 (the following Monday) for its dependency-free task. -/
theorem c6_nodep_start_witness :
    (STask.mk 1 1 none [] 7 8 true).early_start =
      add_business_days (effStart (some 5) 0) 0 (effBlocked (some [])) :=
  c6_nodep_start [⟨1, 1, none, some []⟩] (some 5) (some []) 0 0
    ⟨1, 1, none, some []⟩ (STask.mk 1 1 none [] 7 8 true)
    (by decide) (by decide) (by decide) (by decide)

theorem newStartFor_of_deps (ps : Nat) (bl : List Nat) (ts : List STask) (t : STask)
    (f : Nat) (fs : List Nat) (hne : t.dep_list.isEmpty = false)
    (hpf : predFinishes ts t.dep_list = f :: fs) :
    newStartFor ps bl ts t = add_business_days (fs.foldl max f) 0 bl := by
  have hcond : ¬ (t.dep_list.isEmpty = true) := by
    rw [hne]
    exact Bool.false_ne_true
  show add_business_days
    (if t.dep_list.isEmpty then t.early_start
     else match predFinishes ts t.dep_list with
       | [] => ps
       | f2 :: fs2 => fs2.foldl max f2) 0 bl = _
  rw [if_neg hcond, hpf]

/-- Claim C3: in a converged forward-pass result (one more full pass
changes nothing), dependency ordering holds: for every output task
`t2` and every dependency id of `t2` that resolves in the task map to
a task `T1`, `T1.early_finish <= t2.early_start`. -/
theorem c3_dependency_ordering (tasks : List TaskIn) (proj : Option Nat)
    (blocked : Option (List Nat)) (today : Nat) (pid : Nat) (t2 T1 : STask)
    (hconv : Converged (effStart proj today) (effBlocked blocked)
      (fwdStage tasks proj blocked today))
    (ht2 : t2 ∈ calculate_schedule_dates tasks proj blocked today)
    (hpid : pid ∈ t2.dep_list)
    (hT1 : taskMapFind (calculate_schedule_dates tasks proj blocked today) pid = some T1) :
    T1.early_finish ≤ t2.early_start := by
  by_cases hemp : tasks.isEmpty
  · rw [calculate_schedule_dates, if_pos hemp] at ht2
    simp at ht2
  · rw [calculate_schedule_dates, if_neg hemp] at ht2 hT1
    obtain ⟨j, hj⟩ := List.getElem?_of_mem ht2
    have hcore := critPhase_core_at (effStart proj today) (fwdStage tasks proj blocked today) j
    rw [hj] at hcore
    cases hu2 : (fwdStage tasks proj blocked today)[j]? with
    | none => rw [hu2] at hcore; simp at hcore
    | some u2 =>
        rw [hu2] at hcore
        have hcu2 : coreOf t2 = coreOf u2 := by simpa using hcore
        have hfind := taskMapFind_core
          (critPhase (effStart proj today) (fwdStage tasks proj blocked today))
          (fwdStage tasks proj blocked today)
          (critPhase_core (effStart proj today) (fwdStage tasks proj blocked today)) pid
        rw [hT1] at hfind
        cases hu1 : taskMapFind (fwdStage tasks proj blocked today) pid with
        | none => rw [hu1] at hfind; simp at hfind
        | some u1 =>
            rw [hu1] at hfind
            have hcu1 : coreOf T1 = coreOf u1 := by simpa using hfind
            have hcond := converged_cond (effStart proj today) (effBlocked blocked)
              (fwdStage tasks proj blocked today) hconv j u2 hu2
            have hpid2 : pid ∈ u2.dep_list := by
              rw [← coreOf_dep hcu2]
              exact hpid
            have hmem : u1.early_finish ∈
                predFinishes (fwdStage tasks proj blocked today) u2.dep_list := by
              unfold predFinishes
              refine List.mem_filterMap.mpr ⟨pid, hpid2, ?_⟩
              rw [hu1]
              rfl
            have hne : u2.dep_list.isEmpty = false := by
              cases hdl : u2.dep_list with
              | nil => rw [hdl] at hpid2; exact absurd hpid2 (List.not_mem_nil pid)
              | cons d ds => rfl
            cases hpf : predFinishes (fwdStage tasks proj blocked today) u2.dep_list with
            | nil => rw [hpf] at hmem; exact absurd hmem (List.not_mem_nil _)
            | cons f fs =>
                have hns := newStartFor_of_deps (effStart proj today) (effBlocked blocked)
                  (fwdStage tasks proj blocked today) u2 f fs hne hpf
                rw [hns] at hcond
                rw [hpf] at hmem
                have h1 : u1.early_finish ≤ fs.foldl max f := by
                  rcases List.mem_cons.mp hmem with h | h
                  · rw [h]
                    exact (foldl_max_le fs f).1
                  · exact (foldl_max_le fs f).2 _ h
                have h2 : fs.foldl max f ≤
                    add_business_days (fs.foldl max f) 0 (effBlocked blocked) := by
                  rw [add_business_days_zero]
                  exact le_next_working_day _ _
                rw [coreOf_ef hcu1, coreOf_es hcu2]
                omega

/-- Witness for C3: a two-task chain (task 2 depends on task 1)
converges with task 2 starting exactly at task 1's finish. -/
theorem c3_dependency_ordering_witness :
    (STask.mk 1 1 none [] 0 1 true).early_finish ≤
      (STask.mk 2 1 none [1] 1 2 true).early_start :=
  c3_dependency_ordering [⟨1, 1, none, some []⟩, ⟨2, 1, none, some [1]⟩]
    (some 0) (some []) 0 1 (STask.mk 2 1 none [1] 1 2 true) (STask.mk 1 1 none [] 0 1 true)
    (by decide) (by decide) (by decide) (by decide)
